import Mathlib

/-!
Verification development for the `locationprivacy` repository
(`k-anonymity.py`, `Geomasking.py`, `DifferentialPrivacy.py`).

The notebooks are shallowly embedded: data frames become lists of records,
pandas/shapely operations become explicit list functions, and the PyDP noise
mechanism (which lives in an external library) is modelled from the spec's
inverse-CDF formula.  Coordinates are exact elements of an arbitrary linearly
ordered commutative ring (so the theorems cover rational and real
coordinates, while concrete instances can be evaluated over the integers);
ranking compares squared Euclidean distances, which orders points exactly as
the notebook's `shapely.distance` does, the square root being strictly
monotone on nonnegatives.
-/

namespace LocationPrivacy

section Spatial

variable {α : Type} [LinearOrderedCommRing α]

/-- Squared planar Euclidean distance between two coordinate pairs.
Embeds `me_row.geometry.distance(row.geometry)` (`k-anonymity.py` line 171)
up to the monotone square root: all the notebook does with distances is
compare them, so ranking by `dist2` is ranking by distance. -/
def dist2 (p q : α × α) : α :=
  (p.1 - q.1) * (p.1 - q.1) + (p.2 - q.2) * (p.2 - q.2)

/-- One row of the trip-origin table: the sensitive attribute used by the
conditioned walk (`Gender`) and the point location built from
`Longitude`/`Latitude` (`k-anonymity.py` lines 106-107). -/
structure Record (α : Type) where
  gender : String
  loc : α × α
deriving DecidableEq

/-- The order the spec's words posit for the ranked frame: ascending squared
distance with equal distances broken by the candidate's original position in
the input table.  The program's `sort_values(by=['dist'])` (`k-anonymity.py`
line 186) guarantees only the distance part — its default `kind='quicksort'`
is documented by pandas as not stable — so the tie-break component of this
order is not a guarantee of the program; the program's actual contract is
`sortValuesDist` below. -/
def rankLE (t : α × α) (a b : ℕ × Record α) : Prop :=
  dist2 t a.2.loc < dist2 t b.2.loc ∨
    (dist2 t a.2.loc = dist2 t b.2.loc ∧ a.1 ≤ b.1)

instance (t : α × α) : DecidableRel (rankLE t) := fun a b => by
  unfold rankLE; infer_instance

instance (t : α × α) : IsTotal (ℕ × Record α) (rankLE t) where
  total a b := by
    rcases lt_trichotomy (dist2 t a.2.loc) (dist2 t b.2.loc) with h | h | h
    · exact Or.inl (Or.inl h)
    · rcases Nat.le_total a.1 b.1 with hi | hi
      · exact Or.inl (Or.inr ⟨h, hi⟩)
      · exact Or.inr (Or.inr ⟨h.symm, hi⟩)
    · exact Or.inr (Or.inl h)

instance (t : α × α) : IsTrans (ℕ × Record α) (rankLE t) where
  trans a b c hab hbc := by
    rcases hab with h1 | ⟨h1, i1⟩
    · rcases hbc with h2 | ⟨h2, _⟩
      · exact Or.inl (h1.trans h2)
      · exact Or.inl (h2 ▸ h1)
    · rcases hbc with h2 | ⟨h2, i2⟩
      · exact Or.inl (h1 ▸ h2)
      · exact Or.inr ⟨h1.trans h2, i1.trans i2⟩

/-- One concrete realization of the Rank step (`k-anonymity.py` lines
162-186): annotate every candidate with its position, sort by (squared
distance, original position).  The program's `sort_values(by=['dist'])` only
promises some distance-ascending permutation (`sortValuesDist`); `distRank`
is one such output, used to run the cloaking pipeline on concrete data.  The
claims proved about the pipeline through `distRank` do not depend on its tie
order. -/
def distRank (t : α × α) (cs : List (Record α)) : List (ℕ × Record α) :=
  List.insertionSort (rankLE t) cs.enum

/-- The ordering constraint the program's sort does guarantee: ascending by
the `dist` column alone, with no constraint among equal-distance rows. -/
def distLE (t : α × α) (a b : ℕ × Record α) : Prop :=
  dist2 t a.2.loc ≤ dist2 t b.2.loc

instance (t : α × α) : DecidableRel (distLE t) := fun a b => by
  unfold distLE; infer_instance

/-- `out` is a possible result of `sort_values(by=['dist'])`
(`k-anonymity.py` line 186) on the position-tagged candidate list `inp`: a
permutation of `inp` that ascends by distance.  This relation is the whole
contract of the program's sort — pandas documents the default
`kind='quicksort'` as not stable, so nothing constrains the relative order
of equal-distance rows. -/
def sortValuesDist (t : α × α) (inp out : List (ℕ × Record α)) : Prop :=
  out.Perm inp ∧ out.Sorted (distLE t)

instance [DecidableEq α] (t : α × α) (inp out : List (ℕ × Record α)) :
    Decidable (sortValuesDist t inp out) := by
  unfold sortValuesDist List.Sorted; infer_instance

/-- Plain Select-k (`k-anonymity.py` line 196, `trip_origins_k5 =
sorted.head(k)`): the first `k` rows of the ranked frame.  `head` never
raises; with fewer than `k` rows it returns them all. -/
def selectK {β : Type} (k : ℕ) (l : List β) : List β := l.take k

/-- The plain cloaking pipeline: rank the candidates around the target and
keep the first `k`. -/
def plainCloak (me : α × α) (k : ℕ) (cs : List (Record α)) :
    List (ℕ × Record α) :=
  selectK k (distRank me cs)

/-- Focal re-centering (`k-anonymity.py` lines 271-312): pick the `n`-th row
of the plain `k`-set as the focal point (`focal = trip_origins_k5.iloc[[3]]`),
recompute every candidate's distance to it (`dist_focal`), re-sort, and keep
the first `k` rows (`trip_origins_k5 = sorted.head(5)`).  `none` models the
`iloc` failure when `n` is out of range. -/
def focalCloak (me : α × α) (n k : ℕ) (cs : List (Record α)) :
    Option (List (ℕ × Record α)) :=
  match (plainCloak me k cs).get? n with
  | none => none
  | some f => some (selectK k (distRank f.2.loc cs))

/-- The point set of an anonymity set (the `geometry` column the notebook
feeds to `unary_union.convex_hull` / `.envelope`). -/
def pts (A : List (ℕ × Record α)) : List (α × α) := A.map fun x => x.2.loc

/-- Membership of `q` in the axis-aligned min/max envelope of `ps`
(`trip_origins_k5.geometry.unary_union.envelope`, `k-anonymity.py` line 255):
`q` is inside the bounding box iff each coordinate of `q` is bracketed on
both sides by coordinates of points of `ps`.  For nonempty `ps` this says
exactly `min x ≤ q.x ≤ max x ∧ min y ≤ q.y ≤ max y`. -/
def inBBox (ps : List (α × α)) (q : α × α) : Bool :=
  (ps.any fun a => decide (a.1 ≤ q.1)) && (ps.any fun a => decide (q.1 ≤ a.1)) &&
    (ps.any fun a => decide (a.2 ≤ q.2)) && (ps.any fun a => decide (q.2 ≤ a.2))

/-- The stopping index of the attribute-conditioned walk (`k-anonymity.py`
lines 353-364): scan the ranked rows keeping a running count of rows
satisfying the predicate; break at the first row where the count reaches
`k`; if the loop exhausts the rows, the loop variable is left at the last
index.  On an empty frame the Python loop never binds `i` and the subsequent
slice raises, modelled by `none`. -/
def condStopIdx {β : Type} (p : β → Bool) (k : ℕ) :
    List β → ℕ → ℕ → Option ℕ
  | [], _, _ => none
  | x :: rest, c, i =>
    let c' := if p x then c + 1 else c
    if c' = k then some i
    else
      match rest with
      | [] => some i
      | y :: t => condStopIdx p k (y :: t) c' (i + 1)

/-- Attribute-conditioned selection (`k-anonymity.py` line 366,
`trip_origins_k5f = sorted[0:i+1]`): every ranked row from index 0 up to and
including the walk's stopping index. -/
def condSelect {β : Type} (p : β → Bool) (k : ℕ) (l : List β) :
    Option (List β) :=
  (condStopIdx p k l 0 0).map fun i => l.take (i + 1)

/-- The predicate of the notebook's conditioned walk:
`row.Gender == 'Female'` (`k-anonymity.py` line 359). -/
def isFemale (r : Record α) : Bool := r.gender == "Female"

end Spatial

/-- The convex hull emitted over an anonymity set's points
(`trip_origins_k5.geometry.unary_union.convex_hull`, `k-anonymity.py`
line 229): the minimal convex region of the plane containing them. -/
def hullSet (ps : List (ℝ × ℝ)) : Set (ℝ × ℝ) := convexHull ℝ {a | a ∈ ps}

/-- The k-anonymity grouper over plain (non-categorical) key columns
(`k-anonymity.py` line 55: `groupby(['Age','Gender']).size()`): one row per
key tuple that some record actually projects to, carrying the count of such
records.  The binned grouping of line 83 keys on the categorical `Age_Group`
column and behaves differently — see `equivalenceClassesCat`. -/
def equivalenceClasses {β κ : Type} [DecidableEq κ] (key : β → κ)
    (rs : List β) : List (κ × ℕ) :=
  ((rs.map key).dedup).map fun t => (t, rs.countP fun r => decide (key r = t))

/-- A record of the binned frame as the grouping of `k-anonymity.py` line 83
sees it: the gender value and the code of the `Age_Group` category assigned
by `pd.cut` (pandas groups categoricals by their codes). -/
structure BinnedRecord where
  gender : String
  ageBin : ℕ
deriving DecidableEq

/-- The grouping `trip_origins.groupby(['Age_Group','Gender']).size()` of
`k-anonymity.py` line 83: `Age_Group` is a categorical column with `nbins`
categories, and pandas' default `observed=False` emits one row for every
category of `Age_Group` crossed with every observed `Gender` value — so
category combinations with no records appear with count 0. -/
def equivalenceClassesCat (nbins : ℕ) (rs : List BinnedRecord) :
    List ((ℕ × String) × ℕ) :=
  (List.range nbins).flatMap fun b =>
    ((rs.map BinnedRecord.gender).dedup).map fun g =>
      ((b, g), rs.countP fun r => decide (r.ageBin = b ∧ r.gender = g))

/-- The violation report (`k-anonymity.py` line 86:
`to_count[to_count['Count'] < k]`): every class whose count is below `k`. -/
def violatingClasses {κ : Type} (classes : List (κ × ℕ)) (k : ℕ) :
    List (κ × ℕ) :=
  classes.filter fun c => decide (c.2 < k)

/-- Smallest element of the nonempty value list `v :: vs`, as pandas'
`x.min()` observes it before binning. -/
def listMin (v : ℚ) (vs : List ℚ) : ℚ := vs.foldl min v

/-- Largest element of the nonempty value list `v :: vs` (`x.max()`). -/
def listMax (v : ℚ) (vs : List ℚ) : ℚ := vs.foldl max v

/-- Evenly spaced bin edges: `numpy.linspace(mn, mx, n+1)` as used by
`pd.cut` with an integer `bins` argument, in exact arithmetic. -/
def linspace (mn mx : ℚ) (n : ℕ) : List ℚ :=
  (List.range (n + 1)).map fun i : ℕ => mn + (mx - mn) * (i : ℚ) / (n : ℚ)

/-- The bin edges `pd.cut(values, bins=n)` computes over an observed range
(`k-anonymity.py` line 64).  When the observed min and max coincide pandas
widens both ends by 0.1% of their magnitude (or by 0.001 at zero); otherwise
it spaces the edges evenly and lowers the first edge by 0.1% of the range so
the minimum value falls inside the first left-open interval. -/
def cutEdges (mn mx : ℚ) (n : ℕ) : List ℚ :=
  if mn = mx then
    linspace (mn - (if mn = 0 then 1 / 1000 else |mn| / 1000))
      (mx + (if mx = 0 then 1 / 1000 else |mx| / 1000)) n
  else
    match linspace mn mx n with
    | [] => []
    | e :: es => (e - (mx - mn) / 1000) :: es

/-- Consecutive edge pairs: the interval list built from an edge list. -/
def binsOf : List ℚ → List (ℚ × ℚ)
  | a :: b :: rest => (a, b) :: binsOf (b :: rest)
  | _ => []

/-- Interval membership as `pd.cut` assigns it with its default
`right=True`: each bin is left-open and right-closed, `(lo, hi]`. -/
def inBin (b : ℚ × ℚ) (x : ℚ) : Bool := decide (b.1 < x) && decide (x ≤ b.2)

/-- `pd.cut(vals, bins=n)`'s interval list (`k-anonymity.py` line 64): edges
over the observed min/max of the values, in consecutive pairs.  Pandas
raises on an empty input, modelled by the empty bin list. -/
def cutBins (vals : List ℚ) (n : ℕ) : List (ℚ × ℚ) :=
  match vals with
  | [] => []
  | v :: vs => binsOf (cutEdges (listMin v vs) (listMax v vs) n)

/-- The bin structure asserted by the spec's words (§4.4): `numBins`
equal-width intervals running exactly from the observed min to the observed
max, with no widening of any edge. -/
def specBins (mn mx : ℚ) (n : ℕ) : List (ℚ × ℚ) := binsOf (linspace mn mx n)

/-- Interval membership as the spec's words describe it for every bin except
the last: half-open `[lo, hi)`. -/
def inBinSpecMid (b : ℚ × ℚ) (x : ℚ) : Bool :=
  decide (b.1 ≤ x) && decide (x < b.2)

/-- A cell of the tabular dataset: numeric, string, or the interval values
`pd.cut` writes into the `Age_Group` column. -/
inductive Cell
  | num (q : ℚ)
  | str (s : String)
  | interval (lo hi : ℚ)
deriving DecidableEq

/-- A pandas data frame, shallowly: a column-name list and rows of cells. -/
structure DataFrame where
  cols : List String
  rows : List (List Cell)
deriving DecidableEq

/-- Column assignment `df[name] = vals`: the frame afterwards carries one
more column, each row extended with its value. -/
def addColumn (df : DataFrame) (name : String) (vals : List Cell) : DataFrame :=
  ⟨df.cols ++ [name], (df.rows.zip vals).map fun rv => rv.1 ++ [rv.2]⟩

/-- The cells of a named column (empty if the column is absent). -/
def getCol (df : DataFrame) (c : String) : List Cell :=
  match df.cols.findIdx? fun s => s == c with
  | none => []
  | some i => df.rows.map fun r => r.getD i (Cell.str "")

/-- Numeric reading of a cell. -/
def cellNum : Cell → ℚ
  | Cell.num q => q
  | _ => 0

/-- The distance-annotation statement `trip_origins_geo['dist'] = distances`
(`k-anonymity.py` lines 162-176): the frame bound to the same variable
afterwards, i.e. the input frame extended with a `dist` column holding each
row's (squared) distance to the target. -/
def distAnnotate (df : DataFrame) (me : ℚ × ℚ) : DataFrame :=
  addColumn df "dist"
    ((((getCol df "Longitude").map cellNum).zip
        ((getCol df "Latitude").map cellNum)).map
      fun p => Cell.num (dist2 me p))

/-- The binning statement `trip_origins['Age_Group'] =
pd.cut(trip_origins['Age'], bins=4)` (`k-anonymity.py` line 64): the frame
bound to the same variable afterwards, i.e. the input frame extended with an
`Age_Group` column holding each row's bin interval. -/
def ageGroupAnnotate (df : DataFrame) (n : ℕ) : DataFrame :=
  addColumn df "Age_Group"
    (((getCol df "Age").map cellNum).map fun a =>
      match (cutBins ((getCol df "Age").map cellNum) n).find?
          (fun b => inBin b a) with
      | some b => Cell.interval b.1 b.2
      | none => Cell.str "NaN")

/-- Planar Euclidean distance between two real points. -/
noncomputable def euclid (p q : ℝ × ℝ) : ℝ :=
  Real.sqrt ((p.1 - q.1) ^ 2 + (p.2 - q.2) ^ 2)

/-- `randPoint(pt, buff)` (`Geomasking.py` lines 161-174) with the two draws
of `random.random()` made explicit: radius `buff * u1`, angle
`math.degrees(u2 * 2π)` — a degrees value later fed to the radian-based
`cos`/`sin`, exactly as the notebook does. -/
noncomputable def randPoint (pt : ℝ × ℝ) (buff u1 u2 : ℝ) : ℝ × ℝ :=
  (pt.1 + buff * u1 * Real.cos (u2 * 2 * Real.pi * 180 / Real.pi),
   pt.2 + buff * u1 * Real.sin (u2 * 2 * Real.pi * 180 / Real.pi))

/-- Membership of a point in the circle of a given radius around a centre,
as produced by `randgpd.geometry.buffer(buffer)` (`Geomasking.py`
line 267). -/
noncomputable def inCircle (center : ℝ × ℝ) (radius : ℝ) (p : ℝ × ℝ) : Prop :=
  euclid center p ≤ radius

/-- Clamping a value into a bound range before a noise-sensitive
computation (§4.3 of the spec; PyDP's bounded algorithms). -/
noncomputable def clampR (lo hi x : ℝ) : ℝ := max lo (min x hi)

/-- Modelled from the spec: the Laplace noise mechanism of §4.2.  The actual
generator lives in the external PyDP library, not in this repository, so the
spec's inverse-CDF formula is taken literally:
`noise = -scale * sign(u) * ln(1 - 2|u|)` for a uniform draw
`u ∈ (-1/2, 1/2)`. -/
noncomputable def laplaceNoise (scale u : ℝ) : ℝ :=
  -scale * Real.sign u * Real.log (1 - 2 * |u|)

/-- True mean of a numeric column (`statistics.mean`,
`DifferentialPrivacy.py` line 81), after clamping into the bounds. -/
noncomputable def trueMean (lo hi : ℝ) (vals : List ℝ) : ℝ :=
  ((vals.map (clampR lo hi)).sum) / vals.length

/-- True sample standard deviation of a clamped numeric column
(`statistics.stdev`, `DifferentialPrivacy.py` line 141). -/
noncomputable def trueSd (lo hi : ℝ) (vals : List ℝ) : ℝ :=
  Real.sqrt
    (((vals.map (clampR lo hi)).map fun x => (x - trueMean lo hi vals) ^ 2).sum /
      (vals.length - 1))

/-- Modelled from the spec: `privateCount` of §4.3 — the PyDP `Count`
algorithm behind `private_count_above` (`DifferentialPrivacy.py` lines
121-123) is external library code.  True count plus `laplaceNoise(1/ε)`,
rounded to the nearest integer. -/
noncomputable def privateCount (vals : List ℝ) (eps u : ℝ) : ℤ :=
  round ((vals.length : ℝ) + laplaceNoise (1 / eps) u)

/-- Modelled from the spec: `privateMean` of §4.3 — the PyDP `BoundedMean`
behind `private_mean` (`DifferentialPrivacy.py` lines 89-91) is external
library code.  Clamped mean plus `laplaceNoise((hi - lo)/(ε·n))`. -/
noncomputable def privateMean (vals : List ℝ) (lo hi eps u : ℝ) : ℝ :=
  trueMean lo hi vals + laplaceNoise ((hi - lo) / (eps * vals.length)) u

/-- Modelled from the spec: `privateStdDev` of §4.3 — the PyDP
`BoundedStandardDeviation` behind `private_sd` (`DifferentialPrivacy.py`
lines 143-145) is external library code.  Clamped standard deviation plus
analogously scaled noise, with the final result clamped to be
nonnegative. -/
noncomputable def privateStdDev (vals : List ℝ) (lo hi eps u : ℝ) : ℝ :=
  max 0 (trueSd lo hi vals + laplaceNoise ((hi - lo) / (eps * vals.length)) u)

/-- Nine trip origins on a west-east line, the target (a `Female` record) at
the origin and a tight cluster of eight further records beginning ten units
away: a concrete request on which focal re-centering walks the emitted
geometry off the target. -/
def demoCs : List (Record ℤ) :=
  [⟨"Female", (0, 0)⟩, ⟨"Male", (10, 0)⟩, ⟨"Male", (11, 0)⟩, ⟨"Male", (12, 0)⟩,
   ⟨"Male", (13, 0)⟩, ⟨"Male", (14, 0)⟩, ⟨"Male", (15, 0)⟩, ⟨"Male", (16, 0)⟩,
   ⟨"Male", (17, 0)⟩]

/-- A three-record candidate set, for exercising `head(k)` with `k = 5`. -/
def demoSmall : List (Record ℤ) :=
  [⟨"Female", (0, 0)⟩, ⟨"Male", (1, 0)⟩, ⟨"Male", (2, 0)⟩]

/-- Ranked rows holding two `Female` records among five, for the conditioned
walk. -/
def demoRanked : List (Record ℤ) :=
  [⟨"Male", (0, 0)⟩, ⟨"Female", (1, 0)⟩, ⟨"Male", (2, 0)⟩,
   ⟨"Female", (3, 0)⟩, ⟨"Male", (4, 0)⟩]

/-- A tiny age table for the in-place binning statement. -/
def demoAges : DataFrame := ⟨["Age"], [[Cell.num 10], [Cell.num 20]]⟩

/-- A two-record real-coordinate candidate set containing the target. -/
def demoR : List (Record ℝ) := [⟨"Female", (0, 0)⟩, ⟨"Male", (1, 0)⟩]

/-- Two candidates at equal distance from the origin, in a fixed input
order: the inputs on which the sort contract leaves the tie order free. -/
def demoTie : List (Record ℤ) := [⟨"A", (1, 0)⟩, ⟨"B", (-1, 0)⟩]

section SpatialLemmas

variable {α : Type} [LinearOrderedCommRing α]

lemma dist2_nonneg (t p : α × α) : 0 ≤ dist2 t p :=
  add_nonneg (mul_self_nonneg _) (mul_self_nonneg _)

lemma dist2_self (t : α × α) : dist2 t t = 0 := by simp [dist2]

lemma eq_of_dist2_eq_zero {t p : α × α} (h : dist2 t p = 0) : p = t := by
  unfold dist2 at h
  rcases (add_eq_zero_iff_of_nonneg (mul_self_nonneg _) (mul_self_nonneg _)).mp h
    with ⟨h1, h2⟩
  have e1 : t.1 = p.1 := by
    have := mul_self_eq_zero.mp h1; linarith [sub_eq_zero.mp this]
  have e2 : t.2 = p.2 := by
    have := mul_self_eq_zero.mp h2; linarith [sub_eq_zero.mp this]
  exact Prod.ext e1.symm e2.symm

lemma inBBox_of_mem {ps : List (α × α)} {q : α × α} (hq : q ∈ ps) :
    inBBox ps q = true := by
  simp only [inBBox, Bool.and_eq_true, List.any_eq_true, decide_eq_true_eq]
  exact ⟨⟨⟨⟨q, hq, le_rfl⟩, ⟨q, hq, le_rfl⟩⟩, ⟨q, hq, le_rfl⟩⟩, ⟨q, hq, le_rfl⟩⟩

/-- When the target is itself one of the candidates, the head of the ranked
sequence sits at distance zero, hence at the target's exact coordinates, so
for `k ≥ 1` the plain anonymity set carries the target's point. -/
lemma target_mem_plainCloak (me : α × α) (cs : List (Record α)) (k : ℕ)
    (hk : 1 ≤ k) (hme : ∃ r ∈ cs, r.loc = me) :
    me ∈ pts (plainCloak me k cs) := by
  obtain ⟨r, hr, hloc⟩ := hme
  have h1 : r ∈ cs.enum.map Prod.snd := by rw [List.enum_map_snd]; exact hr
  obtain ⟨y, hy, hysnd⟩ := List.mem_map.mp h1
  have hyd : y ∈ distRank me cs :=
    ((List.perm_insertionSort (rankLE me) cs.enum).symm.mem_iff).mp hy
  rcases hds : distRank me cs with _ | ⟨h, t⟩
  · rw [hds] at hyd; cases hyd
  · have hsorted : List.Sorted (rankLE me) (h :: t) :=
      hds ▸ List.sorted_insertionSort (rankLE me) cs.enum
    have hyd' : y ∈ h :: t := hds ▸ hyd
    have hy0 : dist2 me y.2.loc = 0 := by rw [hysnd, hloc, dist2_self]
    have hd0 : dist2 me h.2.loc = 0 := by
      rcases List.mem_cons.mp hyd' with rfl | hmem
      · exact hy0
      · have hle := (List.sorted_cons.mp hsorted).1 y hmem
        rcases hle with hlt | ⟨heq, _⟩
        · exact le_antisymm (by rw [← hy0]; exact hlt.le) (dist2_nonneg _ _)
        · rw [heq, hy0]
    have hploc : h.2.loc = me := eq_of_dist2_eq_zero hd0
    obtain ⟨k', rfl⟩ : ∃ k', k = k' + 1 :=
      ⟨k - 1, (Nat.succ_pred_eq_of_pos hk).symm⟩
    show me ∈ pts (selectK (k' + 1) (distRank me cs))
    rw [hds]
    simp only [selectK, pts, List.take_succ_cons, List.map_cons, List.mem_cons]
    exact Or.inl hploc.symm

end SpatialLemmas

lemma rankLE_imp_distLE {α : Type} [LinearOrderedCommRing α] (t : α × α)
    (a b : ℕ × Record α) (h : rankLE t a b) : distLE t a b := by
  rcases h with h | ⟨h, _⟩
  · exact h.le
  · exact h.le

/-- C5 counterexample: on two candidates at equal distance from the target,
the program's sort contract (`sortValuesDist`, all that
`sort_values(by=['dist'])` with its unstable default kind guarantees) admits
two different ranked sequences, and the one with the ties reversed violates
the claimed input-order tie-break — so neither the tie order nor the exact
ranked sequence is determined by the program. -/
theorem sort_values_tie_order_not_guaranteed :
    sortValuesDist ((0 : ℤ), 0) demoTie.enum
        [(1, ⟨"B", (-1, 0)⟩), (0, ⟨"A", (1, 0)⟩)] ∧
      sortValuesDist ((0 : ℤ), 0) demoTie.enum
        [(0, ⟨"A", (1, 0)⟩), (1, ⟨"B", (-1, 0)⟩)] ∧
      ([(1, ⟨"B", (-1, 0)⟩), (0, ⟨"A", (1, 0)⟩)] : List (ℕ × Record ℤ)) ≠
        [(0, ⟨"A", (1, 0)⟩), (1, ⟨"B", (-1, 0)⟩)] ∧
      ¬ List.Sorted (rankLE ((0 : ℤ), 0))
        [(1, ⟨"B", (-1, 0)⟩), (0, ⟨"A", (1, 0)⟩)] := by
  decide

/-- C5 (amended): every possible output of the Rank step is a permutation of
the position-tagged candidates ascending by distance to the target, and the
ranked distance sequence is uniquely determined; `distRank` realizes the
contract, but the relative order of equal-distance candidates — and with it
the exact ranked sequence — is not fixed by the program, whose default sort
is unstable. -/
theorem distRank_realizes_sort {α : Type} [LinearOrderedCommRing α]
    (t : α × α) (cs : List (Record α)) :
    sortValuesDist t cs.enum (distRank t cs) ∧
      ∀ out : List (ℕ × Record α), sortValuesDist t cs.enum out →
        out.map (fun x => dist2 t x.2.loc) =
          (distRank t cs).map fun x => dist2 t x.2.loc := by
  have hdr : sortValuesDist t cs.enum (distRank t cs) :=
    ⟨List.perm_insertionSort (rankLE t) cs.enum,
     (List.sorted_insertionSort (rankLE t) cs.enum).imp
       (fun h => rankLE_imp_distLE t _ _ h)⟩
  refine ⟨hdr, fun out hout => ?_⟩
  have hp : (out.map fun x => dist2 t x.2.loc).Perm
      ((distRank t cs).map fun x => dist2 t x.2.loc) :=
    (hout.1.trans hdr.1.symm).map _
  have hs1 : List.Sorted (· ≤ ·) (out.map fun x => dist2 t x.2.loc) :=
    List.Pairwise.map _ (fun _ _ h => h) hout.2
  have hs2 : List.Sorted (· ≤ ·)
      ((distRank t cs).map fun x => dist2 t x.2.loc) :=
    List.Pairwise.map _ (fun _ _ h => h) hdr.2
  exact List.eq_of_perm_of_sorted hp hs1 hs2

/-- Witness for the amended C5: on the equal-distance pair, the reversed-tie
sequence is a legal sort output and realizes the same distance sequence as
`distRank`. -/
theorem distRank_realizes_sort_witness :
    sortValuesDist ((0 : ℤ), 0) demoTie.enum (distRank ((0 : ℤ), 0) demoTie) ∧
      ([(1, ⟨"B", (-1, 0)⟩), (0, ⟨"A", (1, 0)⟩)] : List (ℕ × Record ℤ)).map
          (fun x => dist2 ((0 : ℤ), 0) x.2.loc) =
        (distRank ((0 : ℤ), 0) demoTie).map
          fun x => dist2 ((0 : ℤ), 0) x.2.loc :=
  ⟨(distRank_realizes_sort ((0 : ℤ), 0) demoTie).1,
   (distRank_realizes_sort ((0 : ℤ), 0) demoTie).2
     [(1, ⟨"B", (-1, 0)⟩), (0, ⟨"A", (1, 0)⟩)] (by decide)⟩

/-- C3 counterexample: with three candidates and `k = 5` the plain pipeline
does not fail — it returns a three-element anonymity set, smaller than the
requested `k`. -/
theorem plain_select_no_failure :
    (plainCloak ((0 : ℤ), 0) 5 demoSmall).length = 3 ∧ (3 : ℕ) < 5 := by
  decide

/-- C3 (amended): when `k` exceeds the number of candidates, plain Select-k
(`sorted.head(k)`) silently returns the entire candidate list — an anonymity
set of size `< k` — rather than failing. -/
theorem selectK_underfull {β : Type} (l : List β) (k : ℕ)
    (h : l.length < k) : selectK k l = l ∧ (selectK k l).length < k := by
  have h1 : selectK k l = l := List.take_of_length_le h.le
  exact ⟨h1, by rw [h1]; exact h⟩

/-- Witness for the amended C3 at a concrete three-record set and `k = 5`. -/
theorem selectK_underfull_witness :
    selectK 5 demoSmall = demoSmall ∧ (selectK 5 demoSmall).length < 5 :=
  selectK_underfull demoSmall 5 (by decide)

/-- C1 counterexample: a request with focal re-centering (`n = 3`, `k = 5`)
on nine concrete candidates whose emitted bounding box does not contain the
true target — re-selecting the `k` nearest neighbours of the focal point
drops the target, and the emitted geometry walks away from it. -/
theorem focal_cloak_excludes_target :
    ((focalCloak ((0 : ℤ), 0) 3 5 demoCs).map fun A => inBBox (pts A) (0, 0)) =
      some false := by
  decide

/-- C1 (amended): without focal re-centering (`n = 0`, the anonymity set is
the plain `k` nearest neighbours of the target), a target present among the
candidates lies within or on the boundary of both emitted geometries — the
bounding box and the convex hull — for every `k ≥ 1`.  With `n > 0` the
guarantee fails (see the counterexample): it survives only when the target
happens to be re-selected into the focal anonymity set. -/
theorem plain_cloak_contains_target (me : ℝ × ℝ) (cs : List (Record ℝ))
    (k : ℕ) (hk : 1 ≤ k) (hme : ∃ r ∈ cs, r.loc = me) :
    inBBox (pts (plainCloak me k cs)) me = true ∧
      me ∈ hullSet (pts (plainCloak me k cs)) := by
  have hmem := target_mem_plainCloak me cs k hk hme
  exact ⟨inBBox_of_mem hmem, subset_convexHull ℝ _ hmem⟩

/-- Witness for the amended C1 at a concrete two-record set and `k = 2`. -/
theorem plain_cloak_contains_target_witness :
    inBBox (pts (plainCloak ((0 : ℝ), 0) 2 demoR)) (0, 0) = true ∧
      ((0 : ℝ), (0 : ℝ)) ∈ hullSet (pts (plainCloak ((0 : ℝ), 0) 2 demoR)) :=
  plain_cloak_contains_target (0, 0) demoR 2 (by norm_num)
    ⟨⟨"Female", (0, 0)⟩, by simp [demoR], rfl⟩

/-- C8 counterexample: grouping one record (a `Female` in bin 0) under a
two-category `Age_Group` key emits the unobserved combination
`(bin 1, Female)` with count 0, so `violatingClasses(_, 1)` is non-empty. -/
theorem violating_at_one_nonempty :
    violatingClasses (equivalenceClassesCat 2 [⟨"Female", 0⟩]) 1 =
        [((1, "Female"), 0)] ∧
      violatingClasses (equivalenceClassesCat 2 [⟨"Female", 0⟩]) 1 ≠ [] := by
  decide

/-- C8 (amended): over plain non-categorical keys every reported class
counts at least one record, so `violatingClasses(_, 1)` is empty; but the
source's grouping keys on the categorical `Age_Group` with pandas' default
`observed=False`, which also emits unobserved (bin, gender) combinations
with count 0 — there `violatingClasses(classes, 1)` returns exactly the
zero-count classes, and a class counts 0 precisely when no record projects
to its key tuple. -/
theorem violating_classes_grouping (key : Record ℤ → String × String)
    (rs : List (Record ℤ)) (nbins : ℕ) (brs : List BinnedRecord) :
    violatingClasses (equivalenceClasses key rs) 1 = [] ∧
      violatingClasses (equivalenceClassesCat nbins brs) 1 =
        (equivalenceClassesCat nbins brs).filter (fun c => decide (c.2 = 0)) ∧
      ∀ c ∈ equivalenceClassesCat nbins brs,
        (c.2 = 0 ↔ ¬ ∃ r ∈ brs, r.ageBin = c.1.1 ∧ r.gender = c.1.2) := by
  refine ⟨?_, ?_, ?_⟩
  · rw [violatingClasses, List.filter_eq_nil_iff]
    intro c hc
    simp only [equivalenceClasses, List.mem_map] at hc
    obtain ⟨t, ht, rfl⟩ := hc
    obtain ⟨r, hr, rfl⟩ := List.mem_map.mp (List.mem_dedup.mp ht)
    have hpos : 0 < rs.countP fun r' => decide (key r' = key r) :=
      List.countP_pos_iff.mpr ⟨r, hr, by simp⟩
    simpa using Nat.not_lt.mpr hpos
  · exact List.filter_congr fun c _ => decide_eq_decide.mpr Nat.lt_one_iff
  · intro c hc
    simp only [equivalenceClassesCat, List.mem_flatMap, List.mem_map] at hc
    obtain ⟨b, _, g, _, rfl⟩ := hc
    rw [List.countP_eq_zero]
    simp

/-- Witness for the amended C8 at `nbins = 2` and a single binned record:
the zero-count class `(bin 1, Female)` is exactly an unobserved key tuple. -/
theorem violating_classes_grouping_witness :
    violatingClasses
        (equivalenceClasses (fun r : Record ℤ => (r.gender, r.gender)) []) 1 =
        [] ∧
      ((0 : ℕ) = 0 ↔ ¬ ∃ r ∈ ([⟨"Female", 0⟩] : List BinnedRecord),
        r.ageBin = 1 ∧ r.gender = "Female") :=
  ⟨(violating_classes_grouping (fun r => (r.gender, r.gender)) [] 2
      [⟨"Female", 0⟩]).1,
   (violating_classes_grouping (fun r => (r.gender, r.gender)) [] 2
      [⟨"Female", 0⟩]).2.2 ((1, "Female"), 0) (by decide)⟩

/-- C7 counterexample: the notebook's binning statement rebinds the caller's
frame to a frame with an extra `Age_Group` column, so the input dataset is
not left unchanged. -/
theorem binning_mutates_frame :
    ageGroupAnnotate demoAges 4 ≠ demoAges ∧
      (ageGroupAnnotate demoAges 4).cols = ["Age", "Age_Group"] :=
  ⟨fun h => by
    have := congrArg (fun d => d.cols.length) h
    simp [ageGroupAnnotate, addColumn] at this, rfl⟩

/-- C7 (amended): sorting and selection derive new frames, but the binning
and distance-annotation statements extend the caller's dataset in place with
a new column (`Age_Group`, `dist`): after either statement the dataset
differs from its input — the schema has grown by exactly that column — so
the core does not leave the caller's dataset unchanged. -/
theorem annotate_extends_frame (df : DataFrame) (me : ℚ × ℚ) (n : ℕ) :
    (distAnnotate df me).cols = df.cols ++ ["dist"] ∧ distAnnotate df me ≠ df ∧
      (ageGroupAnnotate df n).cols = df.cols ++ ["Age_Group"] ∧
      ageGroupAnnotate df n ≠ df := by
  refine ⟨rfl, fun h => ?_, rfl, fun h => ?_⟩
  · have := congrArg (fun d => d.cols.length) h
    simp [distAnnotate, addColumn] at this
  · have := congrArg (fun d => d.cols.length) h
    simp [ageGroupAnnotate, addColumn] at this

/-- If the running count is still short of `k` but the remaining rows hold
enough predicate-satisfying entries, the walk stops exactly at the row where
the running count first reaches `k`. -/
lemma condStopIdx_reach {β : Type} (p : β → Bool) (k : ℕ) :
    ∀ (l : List β) (c i : ℕ), c < k → k ≤ c + l.countP p →
      ∃ j, condStopIdx p k l c i = some (i + j) ∧ j < l.length ∧
        (l.take (j + 1)).countP p + c = k ∧
        ∀ m, m ≤ j → (l.take m).countP p + c < k := by
  intro l
  induction l with
  | nil => intro c i hc hcnt; simp at hcnt; omega
  | cons x xs ih =>
    intro c i hc hcnt
    rw [List.countP_cons] at hcnt
    by_cases hck : (if p x then c + 1 else c) = k
    · refine ⟨0, ?_, Nat.succ_pos _, ?_, ?_⟩
      · rcases xs with _ | ⟨y, t⟩ <;> simp [condStopIdx, hck]
      · have hpx : p x = true := by
          by_contra hpx
          simp [hpx] at hck; omega
        simp only [hpx, if_true] at hck
        simp [hpx, List.countP_cons]
        omega
      · intro m hm
        interval_cases m
        simpa using hc
    · have hpx : xs ≠ [] := by
        rintro rfl
        simp at hcnt
        by_cases hpx : p x = true <;> simp [hpx] at hck hcnt <;> omega
      rcases xs with _ | ⟨y, t⟩
      · exact absurd rfl hpx
      · have hc' : (if p x then c + 1 else c) < k := by
          by_cases hx : p x = true <;> simp [hx] at hck ⊢ <;> omega
        have hcnt' : k ≤ (if p x then c + 1 else c) + (y :: t).countP p := by
          by_cases hx : p x = true <;> simp [hx] at hcnt ⊢ <;> omega
        obtain ⟨j', heq, hlen, hcp, hmin⟩ := ih (if p x then c + 1 else c)
          (i + 1) hc' hcnt'
        refine ⟨j' + 1, ?_, by simpa using Nat.succ_lt_succ hlen, ?_, ?_⟩
        · rw [show condStopIdx p k (x :: y :: t) c i =
            condStopIdx p k (y :: t) (if p x then c + 1 else c) (i + 1) by
              simp [condStopIdx, hck]]
          rw [heq]
          congr 1
          omega
        · rw [List.take_succ_cons, List.countP_cons]
          by_cases hx : p x = true <;> simp [hx] at hcp ⊢ <;> omega
        · intro m hm
          rcases m with _ | m'
          · simpa using hc
          · rw [List.take_succ_cons, List.countP_cons]
            have := hmin m' (by omega)
            by_cases hx : p x = true <;> simp [hx] at this ⊢ <;> omega

/-- If the remaining rows can never bring the running count up to `k`, the
walk runs off the end of the list and the loop variable is left at the last
index. -/
lemma condStopIdx_exhaust {β : Type} (p : β → Bool) (k : ℕ) :
    ∀ (l : List β) (c i : ℕ), l ≠ [] → c + l.countP p < k →
      condStopIdx p k l c i = some (i + (l.length - 1)) := by
  intro l
  induction l with
  | nil => intro c i hne; exact absurd rfl hne
  | cons x xs ih =>
    intro c i _ hcnt
    rw [List.countP_cons] at hcnt
    have hck : (if p x then c + 1 else c) ≠ k := by
      by_cases hx : p x = true <;> simp [hx] at hcnt ⊢ <;> omega
    rcases xs with _ | ⟨y, t⟩
    · simp [condStopIdx, hck]
    · rw [show condStopIdx p k (x :: y :: t) c i =
        condStopIdx p k (y :: t) (if p x then c + 1 else c) (i + 1) by
          simp [condStopIdx, hck]]
      rw [ih (if p x then c + 1 else c) (i + 1) (by simp) (by
        by_cases hx : p x = true <;> simp [hx] at hcnt ⊢ <;> omega)]
      congr 1
      simp
      omega

/-- C2: for `k ≥ 1`, when the ranked sequence holds at least `k`
predicate-satisfying rows, the conditioned walk returns the prefix up to and
including the row where the running count first reaches `k`: that prefix
holds at least `k` satisfying rows, every strictly shorter prefix holds
fewer than `k`, its length is at least `k`, and the plain first-`k`
selection is an initial segment of it. -/
theorem condSelect_minimal {β : Type} (p : β → Bool) (k : ℕ) (l : List β)
    (hk : 1 ≤ k) (hcnt : k ≤ l.countP p) :
    ∃ j, condSelect p k l = some (l.take j) ∧ k ≤ (l.take j).countP p ∧
      (∀ m, m < j → (l.take m).countP p < k) ∧ k ≤ j ∧
      ∃ rest, selectK k l ++ rest = l.take j := by
  obtain ⟨j₀, heq, hlen, hcp, hmin⟩ :=
    condStopIdx_reach p k l 0 0 (by omega) (by simpa using hcnt)
  refine ⟨j₀ + 1, by simp [condSelect, heq], by omega, ?_, ?_, ?_⟩
  · intro m hm
    have := hmin m (by omega)
    omega
  · have h1 : (l.take (j₀ + 1)).countP p ≤ (l.take (j₀ + 1)).length :=
      List.countP_le_length p
    have h2 : (l.take (j₀ + 1)).length ≤ j₀ + 1 := by
      simp [List.length_take]
    omega
  · have hkj : k ≤ j₀ + 1 := by
      have h1 : (l.take (j₀ + 1)).countP p ≤ (l.take (j₀ + 1)).length :=
        List.countP_le_length p
      have h2 : (l.take (j₀ + 1)).length ≤ j₀ + 1 := by
        simp [List.length_take]
      omega
    refine ⟨(l.take (j₀ + 1)).drop k, ?_⟩
    have h3 : selectK k l = (l.take (j₀ + 1)).take k := by
      rw [selectK, List.take_take, min_eq_left hkj]
    rw [h3, List.take_append_drop]

/-- Witness for C2 at five concrete ranked rows holding two `Female` records
and `k = 2`: the walk stops at the second `Female` row (index 3) and returns
the four-row prefix. -/
theorem condSelect_minimal_witness :
    ∃ j, condSelect isFemale 2 demoRanked = some (demoRanked.take j) ∧
      2 ≤ (demoRanked.take j).countP isFemale ∧
      (∀ m, m < j → (demoRanked.take m).countP isFemale < 2) ∧ 2 ≤ j ∧
      ∃ rest, selectK 2 demoRanked ++ rest = demoRanked.take j :=
  condSelect_minimal isFemale 2 demoRanked (by decide) (by decide)

/-- C4 counterexample: five concrete ranked rows hold only two `Female`
records, yet with `k = 5` the conditioned walk does not fail — it returns
the entire sequence, whose predicate count stays below `k`. -/
theorem cond_select_no_failure :
    condSelect isFemale 5 demoRanked = some demoRanked ∧
      demoRanked.countP isFemale = 2 ∧ (2 : ℕ) < 5 := by
  decide

/-- C4 (amended): when the predicate count over the whole ranked sequence
stays below `k`, the walk exhausts the rows and silently returns the entire
ranked sequence — a set with fewer than `k` predicate-satisfying members —
rather than failing. -/
theorem condSelect_exhausts {β : Type} (p : β → Bool) (k : ℕ) (l : List β)
    (hne : l ≠ []) (h : l.countP p < k) : condSelect p k l = some l := by
  have heq := condStopIdx_exhaust p k l 0 0 hne (by simpa using h)
  have hlen : l.length - 1 + 1 = l.length :=
    Nat.succ_pred_eq_of_pos (List.length_pos.mpr hne)
  simp [condSelect, heq, hlen]

/-- Witness for the amended C4 at the concrete rows of the counterexample. -/
theorem condSelect_exhausts_witness :
    condSelect isFemale 5 demoRanked = some demoRanked :=
  condSelect_exhausts isFemale 5 demoRanked (by decide) (by decide)

lemma linspace_cons (mn mx : ℚ) (n : ℕ) :
    linspace mn mx n =
      mn :: (List.range n).map fun i : ℕ =>
        mn + (mx - mn) * ((i : ℚ) + 1) / (n : ℚ) := by
  unfold linspace
  rw [List.range_succ_eq_map]
  simp only [List.map_cons, List.map_map, Nat.cast_zero, mul_zero, zero_div,
    add_zero]
  congr 1
  refine List.map_congr_left fun i _ => ?_
  simp only [Function.comp_apply]
  push_cast
  ring

lemma linspace_getLast (mn mx : ℚ) {n : ℕ} (hn : n ≠ 0) :
    (linspace mn mx n).getLast? = some mx := by
  unfold linspace
  rw [List.range_succ, List.map_append, List.map_singleton,
    List.getLast?_concat]
  have h : ((n : ℚ)) ≠ 0 := Nat.cast_ne_zero.mpr hn
  rw [mul_div_cancel_right₀ _ h]
  congr 1
  ring

lemma linspace_chain (mn mx : ℚ) (n : ℕ) (h : mn < mx) :
    List.Chain' (· < ·) (linspace mn mx n) := by
  unfold linspace
  rw [List.chain'_map]
  refine (List.chain'_range_succ _ n).mpr fun m hm => ?_
  have hn : (0 : ℚ) < n := Nat.cast_pos.mpr (by omega)
  apply add_lt_add_left
  rw [div_lt_div_iff_of_pos_right hn]
  apply mul_lt_mul_of_pos_left _ (sub_pos.mpr h)
  exact_mod_cast Nat.lt_succ_self m

/-- Along a strictly increasing edge list every interval's lower edge is at
least the first edge. -/
lemma binsOf_lo_ge : ∀ (l : List ℚ) (b : ℚ),
    List.Chain' (· < ·) (b :: l) → ∀ q ∈ binsOf (b :: l), b ≤ q.1 := by
  intro l
  induction l with
  | nil => intro b _ q hq; simp [binsOf] at hq
  | cons c t ih =>
    intro b hch q hq
    rw [show binsOf (b :: c :: t) = (b, c) :: binsOf (c :: t) from rfl] at hq
    rcases List.mem_cons.mp hq with rfl | hq'
    · exact le_rfl
    · exact (List.chain'_cons.mp hch).1.le.trans
        (ih c (List.chain'_cons.mp hch).2 q hq')

/-- The tiling fact behind the binning invariant: over a strictly increasing
edge list, a value strictly above the first edge and at most the last edge
lies in exactly one of the left-open right-closed intervals. -/
lemma countP_binsOf_eq_one (x : ℚ) : ∀ (l : List ℚ) (a : ℚ),
    List.Chain' (· < ·) (a :: l) → a < x →
    (∀ L, (a :: l).getLast? = some L → x ≤ L) →
    (binsOf (a :: l)).countP (fun b => inBin b x) = 1 := by
  intro l
  induction l with
  | nil =>
    intro a _ hax hlast
    have := hlast a (by simp)
    linarith
  | cons b t ih =>
    intro a hch hax hlast
    have hab : a < b := (List.chain'_cons.mp hch).1
    have hch' : List.Chain' (· < ·) (b :: t) := (List.chain'_cons.mp hch).2
    rw [show binsOf (a :: b :: t) = (a, b) :: binsOf (b :: t) from rfl,
      List.countP_cons]
    by_cases hxb : x ≤ b
    · have h1 : inBin (a, b) x = true := by simp [inBin, hax, hxb]
      have h0 : (binsOf (b :: t)).countP (fun q => inBin q x) = 0 := by
        apply List.countP_eq_zero.mpr
        intro q hq
        have hb := binsOf_lo_ge t b hch' q hq
        simp only [inBin, Bool.and_eq_true, decide_eq_true_eq, not_and]
        intro hlt
        linarith
      rw [h0, h1]
      simp
    · push_neg at hxb
      have h1 : inBin (a, b) x = false := by
        have : ¬ x ≤ b := not_le.mpr hxb
        simp [inBin, this]
      rw [h1]
      simp only [Bool.false_eq_true, if_false, add_zero]
      exact ih b hch' hxb fun L hL =>
        hlast L (by rw [List.getLast?_cons_cons]; exact hL)

/-- The edge list `pd.cut` builds always tiles the observed range: its
intervals, taken with their left-open right-closed membership, contain each
value of `[mn, mx]` exactly once. -/
lemma countP_cutEdges (mn mx : ℚ) (n : ℕ) (x : ℚ) (hn : 1 ≤ n)
    (h1 : mn ≤ x) (h2 : x ≤ mx) :
    (binsOf (cutEdges mn mx n)).countP (fun b => inBin b x) = 1 := by
  have hn0 : n ≠ 0 := by omega
  by_cases heq : mn = mx
  · subst heq
    have hx : x = mn := le_antisymm h2 h1
    subst hx
    have hd : 0 < (if x = 0 then (1 : ℚ) / 1000 else |x| / 1000) := by
      split
      · norm_num
      · next hne => exact div_pos (abs_pos.mpr hne) (by norm_num)
    have hlh : x - (if x = 0 then (1 : ℚ) / 1000 else |x| / 1000) <
        x + (if x = 0 then (1 : ℚ) / 1000 else |x| / 1000) := by linarith
    rw [cutEdges, if_pos rfl]
    have hsh := linspace_cons (x - (if x = 0 then (1 : ℚ) / 1000 else |x| / 1000))
      (x + (if x = 0 then (1 : ℚ) / 1000 else |x| / 1000)) n
    have hch := linspace_chain (x - (if x = 0 then (1 : ℚ) / 1000 else |x| / 1000))
      (x + (if x = 0 then (1 : ℚ) / 1000 else |x| / 1000)) n hlh
    have hlast := linspace_getLast (x - (if x = 0 then (1 : ℚ) / 1000 else |x| / 1000))
      (x + (if x = 0 then (1 : ℚ) / 1000 else |x| / 1000)) hn0
    rw [hsh] at hch hlast ⊢
    apply countP_binsOf_eq_one x _ _ hch (by linarith)
    intro L hL
    rw [hlast] at hL
    cases hL
    linarith
  · have hlt : mn < mx := lt_of_le_of_ne (h1.trans h2) heq
    have hadj : 0 < (mx - mn) / 1000 := div_pos (sub_pos.mpr hlt) (by norm_num)
    have hsh := linspace_cons mn mx n
    have hch := linspace_chain mn mx n hlt
    have hlast := linspace_getLast mn mx hn0
    rw [hsh] at hch hlast
    rw [cutEdges, if_neg heq, hsh]
    obtain ⟨m, rfl⟩ : ∃ m, n = m + 1 := ⟨n - 1, by omega⟩
    rw [List.range_succ_eq_map] at hch hlast ⊢
    simp only [List.map_cons, List.map_map] at hch hlast ⊢
    have hch2 := List.chain'_cons.mp hch
    apply countP_binsOf_eq_one x _ _ (List.chain'_cons.mpr ⟨by linarith [hch2.1], hch2.2⟩)
      (by linarith)
    intro L hL
    rw [List.getLast?_cons_cons] at hL hlast
    rw [hlast] at hL
    cases hL
    linarith

/-- C6 (amended): for every nonempty value list and every `numBins ≥ 1`,
`pd.cut` partitions the observed range into `numBins` left-open right-closed
intervals `(lo, hi]` — the first widened slightly below the observed minimum
— and every value within the observed `[min, max]` is contained in exactly
one bin. -/
theorem cutBins_unique_bin (v₀ : ℚ) (vs : List ℚ) (n : ℕ) (x : ℚ)
    (hn : 1 ≤ n) (h1 : listMin v₀ vs ≤ x) (h2 : x ≤ listMax v₀ vs) :
    (cutBins (v₀ :: vs) n).countP (fun b => inBin b x) = 1 :=
  countP_cutEdges (listMin v₀ vs) (listMax v₀ vs) n x hn h1 h2

/-- Witness for the amended C6: the in-range value 500 of the observed range
`[0, 1000]` falls in exactly one of the four bins. -/
theorem cutBins_unique_bin_witness :
    (cutBins [0, 1000] 4).countP (fun b => inBin b 500) = 1 :=
  cutBins_unique_bin 0 [1000] 4 500 (by norm_num)
    (by norm_num [listMin, min_def]) (by norm_num [listMax, max_def])

/-- C6 counterexample: on the values `[0, 1000]` with four bins the code's
bins are not the spec's `[lo, hi)` partition of `[min, max]`: the first
produced interval is `(-1, 250]`, whose lower edge lies strictly below the
observed minimum, and the boundary value 250 belongs to the first interval
and not the second — under the spec's half-open `[lo, hi)` reading it would
belong to the second and not the first. -/
theorem cut_bins_differ_from_spec :
    cutBins [0, 1000] 4 ≠ specBins 0 1000 4 ∧
      (cutBins [0, 1000] 4).head? = some (-1, 250) ∧
      (specBins 0 1000 4).head? = some (0, 250) ∧
      inBin (-1, 250) 250 = true ∧ inBin (250, 500) 250 = false ∧
      inBinSpecMid (0, 250) 250 = false ∧ inBinSpecMid (250, 500) 250 = true := by
  have hcut : cutBins [0, 1000] 4 =
      [(-1, 250), (250, 500), (500, 750), (750, 1000)] := by
    norm_num [cutBins, cutEdges, linspace, listMin, listMax, binsOf,
      List.range_succ, min_def, max_def]
  have hspec : specBins 0 1000 4 =
      [(0, 250), (250, 500), (500, 750), (750, 1000)] := by
    norm_num [specBins, linspace, binsOf, List.range_succ]
  refine ⟨by rw [hcut, hspec]; simp, by rw [hcut]; rfl, by rw [hspec]; rfl,
    ?_, ?_, ?_, ?_⟩ <;> norm_num [inBin, inBinSpecMid]

lemma laplaceNoise_zero (s : ℝ) : laplaceNoise s 0 = 0 := by
  simp [laplaceNoise]

/-- The inverse-CDF mechanism is surjective onto the positive reals: for any
positive target noise `t` there is a legal positive draw producing exactly
`t`. -/
lemma laplaceNoise_hit (s t : ℝ) (hs : 0 < s) (ht : 0 < t) :
    ∃ u : ℝ, 0 < u ∧ u < 1 / 2 ∧ laplaceNoise s u = t := by
  have h1 : Real.exp (-t / s) < 1 :=
    Real.exp_lt_one_iff.mpr (div_neg_of_neg_of_pos (neg_lt_zero.mpr ht) hs)
  have h2 : 0 < Real.exp (-t / s) := Real.exp_pos _
  have hu : 0 < (1 - Real.exp (-t / s)) / 2 := by linarith
  refine ⟨(1 - Real.exp (-t / s)) / 2, hu, by linarith, ?_⟩
  rw [laplaceNoise, Real.sign_of_pos hu, abs_of_pos hu]
  have he : 1 - 2 * ((1 - Real.exp (-t / s)) / 2) = Real.exp (-t / s) := by
    ring
  rw [he, Real.log_exp]
  field_simp

/-- C9: with a nondegenerate bound range, a positive budget and a nonempty
column, each of the three private statistics takes different values on two
legal draws of the injected uniform source — the noise mechanism is not a
no-op, so repeated calls need not agree. -/
theorem private_stats_nondeterministic (vals : List ℝ) (lo hi eps : ℝ)
    (hlo : lo < hi) (heps : 0 < eps) (hne : vals ≠ []) :
    (∃ u₁ u₂ : ℝ, |u₁| < 1 / 2 ∧ |u₂| < 1 / 2 ∧
        privateCount vals eps u₁ ≠ privateCount vals eps u₂) ∧
      (∃ u₁ u₂ : ℝ, |u₁| < 1 / 2 ∧ |u₂| < 1 / 2 ∧
        privateMean vals lo hi eps u₁ ≠ privateMean vals lo hi eps u₂) ∧
      (∃ u₁ u₂ : ℝ, |u₁| < 1 / 2 ∧ |u₂| < 1 / 2 ∧
        privateStdDev vals lo hi eps u₁ ≠ privateStdDev vals lo hi eps u₂) := by
  have hn : 0 < (vals.length : ℝ) := by
    exact_mod_cast List.length_pos.mpr hne
  have hscale : 0 < (hi - lo) / (eps * vals.length) :=
    div_pos (sub_pos.mpr hlo) (mul_pos heps hn)
  refine ⟨?_, ?_, ?_⟩
  · obtain ⟨u, hu0, hu2, hval⟩ :=
      laplaceNoise_hit (1 / eps) 1 (by positivity) one_pos
    refine ⟨0, u, by norm_num, by rwa [abs_of_pos hu0], ?_⟩
    rw [privateCount, privateCount, laplaceNoise_zero, hval, add_zero,
      round_natCast]
    have hc : ((vals.length : ℝ) + 1) = ((vals.length + 1 : ℕ) : ℝ) := by
      push_cast; ring
    rw [hc, round_natCast]
    exact_mod_cast Nat.ne_of_lt (Nat.lt_succ_self _)
  · obtain ⟨u, hu0, hu2, hval⟩ := laplaceNoise_hit _ 1 hscale one_pos
    refine ⟨0, u, by norm_num, by rwa [abs_of_pos hu0], ?_⟩
    rw [privateMean, privateMean, laplaceNoise_zero, hval]
    intro h
    have : (0 : ℝ) = 1 := by linarith
    norm_num at this
  · obtain ⟨u, hu0, hu2, hval⟩ := laplaceNoise_hit _ 1 hscale one_pos
    refine ⟨0, u, by norm_num, by rwa [abs_of_pos hu0], ?_⟩
    rw [privateStdDev, privateStdDev, laplaceNoise_zero, hval, add_zero]
    have h0 : 0 ≤ trueSd lo hi vals := Real.sqrt_nonneg _
    rw [max_eq_right h0, max_eq_right (by linarith)]
    intro h
    linarith

/-- Witness for C9 at the one-element column `[1]`, bounds `[0, 1]` and
budget 1. -/
theorem private_stats_nondeterministic_witness :
    (∃ u₁ u₂ : ℝ, |u₁| < 1 / 2 ∧ |u₂| < 1 / 2 ∧
        privateCount [1] 1 u₁ ≠ privateCount [1] 1 u₂) ∧
      (∃ u₁ u₂ : ℝ, |u₁| < 1 / 2 ∧ |u₂| < 1 / 2 ∧
        privateMean [1] 0 1 1 u₁ ≠ privateMean [1] 0 1 1 u₂) ∧
      (∃ u₁ u₂ : ℝ, |u₁| < 1 / 2 ∧ |u₂| < 1 / 2 ∧
        privateStdDev [1] 0 1 1 u₁ ≠ privateStdDev [1] 0 1 1 u₂) :=
  private_stats_nondeterministic [1] 0 1 1 (by norm_num) (by norm_num)
    (by simp)

/-- C10: for every nonnegative buffer radius and every pair of draws with the
radius draw in `[0, 1)`, the masked point lies at Euclidean distance at most
`buff` from the original point — the degrees-as-radians angle still scales a
unit vector — and therefore the circle of radius `buff` around the masked
point always contains the original point. -/
theorem randPoint_within_buffer (pt : ℝ × ℝ) (buff u1 u2 : ℝ)
    (hb : 0 ≤ buff) (h0 : 0 ≤ u1) (h1 : u1 < 1) :
    euclid (randPoint pt buff u1 u2) pt ≤ buff ∧
      inCircle (randPoint pt buff u1 u2) buff pt := by
  have key : euclid (randPoint pt buff u1 u2) pt = buff * u1 := by
    rw [euclid, randPoint]
    have he : (pt.1 + buff * u1 * Real.cos (u2 * 2 * Real.pi * 180 / Real.pi)
          - pt.1) ^ 2 +
        (pt.2 + buff * u1 * Real.sin (u2 * 2 * Real.pi * 180 / Real.pi)
          - pt.2) ^ 2 =
        (buff * u1) ^ 2 *
          (Real.cos (u2 * 2 * Real.pi * 180 / Real.pi) ^ 2 +
            Real.sin (u2 * 2 * Real.pi * 180 / Real.pi) ^ 2) := by
      ring
    rw [he, Real.cos_sq_add_sin_sq, mul_one,
      Real.sqrt_sq (mul_nonneg hb h0)]
  have hle : buff * u1 ≤ buff := mul_le_of_le_one_right hb h1.le
  exact ⟨key ▸ hle, show euclid (randPoint pt buff u1 u2) pt ≤ buff from
    key ▸ hle⟩

/-- Witness for C10 at the origin with unit buffer and zero draws. -/
theorem randPoint_within_buffer_witness :
    euclid (randPoint ((0 : ℝ), 0) 1 0 0) (0, 0) ≤ 1 ∧
      inCircle (randPoint ((0 : ℝ), 0) 1 0 0) 1 (0, 0) :=
  randPoint_within_buffer (0, 0) 1 0 0 (by norm_num) le_rfl (by norm_num)

end LocationPrivacy
